import Mathlib

/-!
Verification development for a retrieval-augmented legal question-answering
pipeline (Next.js route `app/api/chat/route.ts` plus the ingestion chunker
script).  The definitions below are shallow embeddings of the TypeScript
source: JavaScript strings are modelled as `List Char` / `String`, JS `Map`
and `Set` as insertion-ordered association lists, JS numbers used for RRF
scores as exact rationals, and fallible parsing as `Option`.
-/

set_option maxRecDepth 4000

namespace Chatbot

/-! ## Streaming answer extractor (`createAnswerStreamExtractor`)

The extractor is a character-at-a-time state machine; all of its closure
variables become fields of `ExtSt`.  `procChar` is a faithful transcription
of the body of the `for` loop inside `push`. -/

structure ExtSt where
  inString : Bool
  stringEscape : Bool
  currentString : List Char
  parsingKey : Bool
  lastString : List Char
  expectingAnswerValue : Bool
  inAnswerValue : Bool
  answerEscape : Bool
  unicodeBuffer : Option (List Char)
deriving DecidableEq, Repr

def extInit : ExtSt :=
  { inString := false, stringEscape := false, currentString := []
    parsingKey := false, lastString := [], expectingAnswerValue := false
    inAnswerValue := false, answerEscape := false, unicodeBuffer := none }

/-- The extractor's private whitespace test (space, newline, tab, CR). -/
def isWsExt (c : Char) : Bool :=
  c = ' ' || c = '\n' || c = '\t' || c = '\r'

/-- Test for the regex `[0-9a-fA-F]` used on unicode-escape digits. -/
def isHexDigit (c : Char) : Bool :=
  ('0' ≤ c && c ≤ '9') || ('a' ≤ c && c ≤ 'f') || ('A' ≤ c && c ≤ 'F')

def hexDigitVal (c : Char) : Nat :=
  if '0' ≤ c && c ≤ '9' then c.toNat - '0'.toNat
  else if 'a' ≤ c && c ≤ 'f' then c.toNat - 'a'.toNat + 10
  else if 'A' ≤ c && c ≤ 'F' then c.toNat - 'A'.toNat + 10
  else 0

/-- Value of `parseInt(buf, 16)` for a list of hex digits. -/
def hexVal (buf : List Char) : Nat :=
  buf.foldl (fun acc c => acc * 16 + hexDigitVal c) 0

/-- Model of `String.fromCharCode` on a 16-bit code unit. -/
def fromCharCode (n : Nat) : Char := Char.ofNat (n % 65536)

/-- Decoding of a simple (non-`u`) escape: the `switch (char)` block;
unrecognized escapes pass the character through. -/
def escDecode (c : Char) : Char :=
  if c = '\"' then '\"'
  else if c = '\\' then '\\'
  else if c = 'n' then '\n'
  else if c = 'r' then '\r'
  else if c = 't' then '\t'
  else if c = 'b' then Char.ofNat 8
  else if c = 'f' then Char.ofNat 12
  else c

def answerKey : List Char := "answer".toList

/-- One loop iteration of `push`: processes one character, returning the new
state and the characters appended to `emitted` by that iteration. -/
def procChar (st : ExtSt) (c : Char) : ExtSt × List Char :=
  if st.inAnswerValue then
    match st.unicodeBuffer with
    | some buf =>
      if isHexDigit c then
        let buf' := buf ++ [c]
        if buf'.length = 4 then
          ({ st with unicodeBuffer := none, answerEscape := false },
            [fromCharCode (hexVal buf')])
        else
          ({ st with unicodeBuffer := some buf' }, [])
      else
        ({ st with unicodeBuffer := none, answerEscape := false },
          '\\' :: 'u' :: (buf ++ [c]))
    | none =>
      if st.answerEscape then
        if c = 'u' then
          ({ st with unicodeBuffer := some [], answerEscape := false }, [])
        else
          ({ st with answerEscape := false }, [escDecode c])
      else if c = '\\' then
        ({ st with answerEscape := true }, [])
      else if c = '\"' then
        ({ st with inAnswerValue := false }, [])
      else
        (st, [c])
  else if st.inString then
    if st.stringEscape then
      ({ st with currentString := st.currentString ++ [c], stringEscape := false }, [])
    else if c = '\\' then
      ({ st with stringEscape := true }, [])
    else if c = '\"' then
      ({ st with inString := false, lastString := st.currentString,
                 parsingKey := true, currentString := [] }, [])
    else
      ({ st with currentString := st.currentString ++ [c] }, [])
  else if st.parsingKey && isWsExt c then
    (st, [])
  else if st.parsingKey && c = ':' then
    ({ st with parsingKey := false,
               expectingAnswerValue :=
                 st.expectingAnswerValue || decide (st.lastString = answerKey) }, [])
  else
    -- the JS code falls through here after setting `parsingKey = false`
    let st1 := { st with parsingKey := false }
    if st1.expectingAnswerValue then
      if isWsExt c then (st1, [])
      else
        ({ st1 with expectingAnswerValue := false,
                    inAnswerValue := st1.inAnswerValue || decide (c = '\"') }, [])
    else if c = '\"' then
      ({ st1 with inString := true, currentString := [] }, [])
    else
      (st1, [])

/-- `push` on a whole fragment: fold `procChar` over its characters,
concatenating everything emitted. -/
def procString (st : ExtSt) (cs : List Char) : ExtSt × List Char :=
  match cs with
  | [] => (st, [])
  | c :: rest =>
    let (st1, e1) := procChar st c
    let (st2, e2) := procString st1 rest
    (st2, e1 ++ e2)

/-- Pushing a sequence of fragments through one extractor instance,
concatenating all emissions (the extractor state persists across pushes). -/
def pushFrags (st : ExtSt) (frags : List (List Char)) : ExtSt × List Char :=
  match frags with
  | [] => (st, [])
  | f :: rest =>
    let (st1, e1) := procString st f
    let (st2, e2) := pushFrags st1 rest
    (st2, e1 ++ e2)

theorem procString_append (st : ExtSt) (a b : List Char) :
    procString st (a ++ b) =
      ((procString (procString st a).1 b).1,
        (procString st a).2 ++ (procString (procString st a).1 b).2) := by
  induction a generalizing st with
  | nil => simp [procString]
  | cons c rest ih =>
    simp only [List.cons_append, procString, List.append_eq]
    rw [ih (procChar st c).1]
    simp [List.append_assoc]

/-- The emission of a fragment sequence depends only on the concatenation of
the fragments. -/
theorem pushFrags_join (st : ExtSt) (frags : List (List Char)) :
    pushFrags st frags = procString st frags.flatten := by
  induction frags generalizing st with
  | nil => simp [pushFrags, procString]
  | cons f rest ih =>
    simp only [pushFrags, List.flatten_cons]
    rw [procString_append, ih (procString st f).1]

/-- The raw model completion of the round-trip spec example:
`{"citations":["a"],"answer":"He said \"hi\"\u2014bye"}`. -/
def roundTripInput : List Char :=
  "\x7b\"citations\":[\"a\"],\"answer\":\"He said \\\"hi\\\"\\u2014bye\"\x7d".toList

/-- The decoded answer the extractor must emit: `He said "hi"—bye`. -/
def roundTripOutput : List Char :=
  "He said \"hi\"".toList ++ [Char.ofNat 0x2014] ++ "bye".toList

/-- C1: for every partition of the raw completion
`{"citations":["a"],"answer":"He said \"hi\"—bye"}` into an ordered
sequence of fragments — split at arbitrary boundaries, including in the
middle of an escape sequence — pushing the fragments in order through
`createAnswerStreamExtractor` and concatenating everything it emits yields
exactly `He said "hi"—bye` (escapes decoded, `—` decoded to an em
dash), with no character duplicated and none lost. -/
theorem answer_stream_roundTrip (frags : List (List Char))
    (h : frags.flatten = roundTripInput) :
    (pushFrags extInit frags).2 = roundTripOutput := by
  rw [pushFrags_join, h]
  decide

/-- Witness for C1: a concrete three-fragment split of the input whose middle
boundary falls inside the `—` escape (between its hex digits). -/
theorem answer_stream_roundTrip_witness :
    (pushFrags extInit
      [roundTripInput.take 30, (roundTripInput.drop 30).take 16,
        roundTripInput.drop 46]).2 = roundTripOutput :=
  answer_stream_roundTrip
    [roundTripInput.take 30, (roundTripInput.drop 30).take 16,
      roundTripInput.drop 46] (by decide)

/-! ## Substring search

Helpers modelling JavaScript `String.prototype.indexOf` on `List Char`:
`findSub n h` is the least index at which `n` occurs in `h`, if any. -/

theorem pfx_length_le {n h : List Char} (hp : n.isPrefixOf h = true) :
    n.length ≤ h.length := by
  induction n generalizing h with
  | nil => simp
  | cons a as ih =>
    cases h with
    | nil => simp [List.isPrefixOf] at hp
    | cons b bs =>
      simp only [List.isPrefixOf, Bool.and_eq_true] at hp
      simpa using ih hp.2

theorem pfx_append_ext {n x : List Char} (y : List Char)
    (hp : n.isPrefixOf x = true) : n.isPrefixOf (x ++ y) = true := by
  induction n generalizing x with
  | nil => simp [List.isPrefixOf]
  | cons a as ih =>
    cases x with
    | nil => simp [List.isPrefixOf] at hp
    | cons b bs =>
      simp only [List.isPrefixOf, Bool.and_eq_true] at hp ⊢
      exact ⟨hp.1, ih hp.2⟩

theorem pfx_append_fit {n x y : List Char}
    (hp : n.isPrefixOf (x ++ y) = true) (hl : n.length ≤ x.length) :
    n.isPrefixOf x = true := by
  induction n generalizing x with
  | nil => simp [List.isPrefixOf]
  | cons a as ih =>
    cases x with
    | nil => simp at hl
    | cons b bs =>
      simp only [List.cons_append, List.isPrefixOf, Bool.and_eq_true] at hp ⊢
      exact ⟨hp.1, ih hp.2 (by simpa using hl)⟩

def findSub (n : List Char) : List Char → Option Nat
  | [] => if n.isPrefixOf [] then some 0 else none
  | c :: t =>
    if n.isPrefixOf (c :: t) then some 0 else (findSub n t).map (· + 1)

theorem findSub_occurs {n h : List Char} {p : Nat}
    (hf : findSub n h = some p) : n.isPrefixOf (h.drop p) = true := by
  induction h generalizing p with
  | nil =>
    simp only [findSub] at hf
    by_cases hp : n.isPrefixOf [] = true
    · simp [hp] at hf; subst hf; simpa using hp
    · simp [hp] at hf
  | cons c t ih =>
    simp only [findSub] at hf
    by_cases hp : n.isPrefixOf (c :: t) = true
    · simp [hp] at hf; subst hf; simpa using hp
    · rw [if_neg hp, Option.map_eq_some'] at hf
      obtain ⟨q, hq, rfl⟩ := hf
      simpa using ih hq

theorem findSub_min {n h : List Char} {p : Nat}
    (hf : findSub n h = some p) :
    ∀ q, q < p → n.isPrefixOf (h.drop q) = false := by
  induction h generalizing p with
  | nil =>
    simp only [findSub] at hf
    by_cases hp : n.isPrefixOf [] = true
    · simp [hp] at hf; subst hf; omega
    · simp [hp] at hf
  | cons c t ih =>
    simp only [findSub] at hf
    by_cases hp : n.isPrefixOf (c :: t) = true
    · simp [hp] at hf; subst hf; omega
    · rw [if_neg hp, Option.map_eq_some'] at hf
      obtain ⟨q0, hq0, rfl⟩ := hf
      intro q hq
      cases q with
      | zero =>
        simp only [List.drop_zero]
        exact Bool.eq_false_iff.mpr hp
      | succ q' => simpa using ih hq0 q' (by omega)

theorem findSub_none_no {n h : List Char}
    (hf : findSub n h = none) : ∀ q, n.isPrefixOf (h.drop q) = false := by
  induction h with
  | nil =>
    simp only [findSub] at hf
    by_cases hp : n.isPrefixOf [] = true
    · simp [hp] at hf
    · intro q
      simp only [List.drop_nil]
      exact Bool.eq_false_iff.mpr hp
  | cons c t ih =>
    simp only [findSub] at hf
    by_cases hp : n.isPrefixOf (c :: t) = true
    · simp [hp] at hf
    · rw [if_neg hp, Option.map_eq_none'] at hf
      intro q
      cases q with
      | zero =>
        simp only [List.drop_zero]
        exact Bool.eq_false_iff.mpr hp
      | succ q' => simpa using ih hf q'

theorem findSub_of_min {n h : List Char} {p : Nat}
    (h1 : n.isPrefixOf (h.drop p) = true)
    (h2 : ∀ q, q < p → n.isPrefixOf (h.drop q) = false) :
    findSub n h = some p := by
  induction h generalizing p with
  | nil =>
    have hp0 : p = 0 := by
      by_contra hne
      have := h2 0 (by omega)
      simp only [List.drop_nil] at h1 this
      rw [this] at h1; exact Bool.false_ne_true h1
    subst hp0
    simp only [List.drop_nil] at h1
    simp [findSub, h1]
  | cons c t ih =>
    cases p with
    | zero =>
      simp only [List.drop_zero] at h1
      simp [findSub, h1]
    | succ p' =>
      have h0 : n.isPrefixOf (c :: t) = false := by simpa using h2 0 (by omega)
      have hrec : findSub n t = some p' := by
        apply ih (by simpa using h1)
        intro q hq
        simpa using h2 (q + 1) (by omega)
      simp [findSub, h0, hrec]

theorem findSub_some_add_length {n h : List Char} {p : Nat}
    (hne : n ≠ []) (hf : findSub n h = some p) : p + n.length ≤ h.length := by
  have h1 := findSub_occurs hf
  have h2 := pfx_length_le h1
  have h3 : (h.drop p).length = h.length - p := List.length_drop p h
  have h4 : 0 < n.length := by cases n with | nil => exact absurd rfl hne | cons a as => simp
  by_cases hp : p ≤ h.length
  · omega
  · exfalso
    have : h.drop p = [] := List.drop_eq_nil_of_le (by omega)
    rw [this] at h1
    cases n with
    | nil => exact hne rfl
    | cons a as => simp [List.isPrefixOf] at h1

/-! ## Inline citation stripper (`createInlineCitationStripper`)

`INLINE_CITE_START` is `"cite"`; `INLINE_CITE_END` is the empty string, so
`text.indexOf(INLINE_CITE_END, i)` always returns `i` and the `inCite` flag
is cleared on the very next loop iteration.  The scanning loop of the
returned closure is embedded as `goStripF` (the fuel argument is the length
of the text, which strictly bounds the loop's progress). -/

def citeTok : List Char := "cite".toList

/-- One invocation of the stripper closure's scanning loop on `text`,
starting outside a marker (which is also where an entering `inCite = true`
state immediately lands, because the end token is empty): returns the final
`inCite` flag, the new `carry`, and the emitted output. -/
def goStripF : Nat → List Char → Bool × List Char × List Char
  | 0, t => (false, t, [])
  | fuel + 1, t =>
    match findSub citeTok t with
    | none =>
      if 3 ≤ t.length then (false, t.drop (t.length - 3), t.take (t.length - 3))
      else (false, t, [])
    | some j =>
      let rest := t.drop (j + 4)
      if rest.isEmpty then (true, [], t.take j)
      else
        let r := goStripF fuel rest
        (r.1, r.2.1, t.take j ++ r.2.2)

def goStrip (t : List Char) : Bool × List Char × List Char := goStripF t.length t

structure StripSt where
  inCite : Bool
  carry : List Char
deriving DecidableEq, Repr

def stripInit : StripSt := { inCite := false, carry := [] }

/-- One call of the closure returned by `createInlineCitationStripper` on a
fragment: an empty fragment returns immediately; otherwise the held-back
`carry` is prepended and the scanning loop runs. -/
def stripChunk (st : StripSt) (chunk : List Char) : StripSt × List Char :=
  if chunk.isEmpty then (st, [])
  else
    let r := goStrip (st.carry ++ chunk)
    ({ inCite := r.1, carry := r.2.1 }, r.2.2)

/-- Feeding a fragment sequence through one stripper instance, concatenating
all emissions. -/
def runStrip (st : StripSt) (frags : List (List Char)) : StripSt × List Char :=
  match frags with
  | [] => (st, [])
  | f :: rest =>
    let (st1, e1) := stripChunk st f
    let (st2, e2) := runStrip st1 rest
    (st2, e1 ++ e2)

/-- Reference semantics: remove every left-to-right non-overlapping
occurrence of the `cite` marker from a complete text (what the stripper
computes in the limit of a single complete fragment with no holdback). -/
def removeCitesF : Nat → List Char → List Char
  | 0, t => t
  | fuel + 1, t =>
    match findSub citeTok t with
    | none => t
    | some j => t.take j ++ removeCitesF fuel (t.drop (j + 4))

def removeCites (t : List Char) : List Char := removeCitesF t.length t

theorem citeTok_length : citeTok.length = 4 := by decide

theorem findSub_cite_nil : findSub citeTok [] = none := by decide

theorem findSub_cite_bound {t : List Char} {j : Nat}
    (hf : findSub citeTok t = some j) : j + 4 ≤ t.length := by
  have := @findSub_some_add_length citeTok _ _ (by decide) hf
  simpa [citeTok_length] using this

theorem removeCitesF_congr :
    ∀ f1 f2 t, t.length ≤ f1 → t.length ≤ f2 →
      removeCitesF f1 t = removeCitesF f2 t := by
  intro f1
  induction f1 with
  | zero =>
    intro f2 t h1 h2
    have ht : t = [] := List.length_eq_zero.mp (by omega)
    subst ht
    cases f2 with
    | zero => rfl
    | succ g => simp [removeCitesF, findSub_cite_nil]
  | succ g ih =>
    intro f2 t h1 h2
    cases f2 with
    | zero =>
      have ht : t = [] := List.length_eq_zero.mp (by omega)
      subst ht
      simp [removeCitesF, findSub_cite_nil]
    | succ g2 =>
      simp only [removeCitesF]
      cases hf : findSub citeTok t with
      | none => rfl
      | some j =>
        have hj := findSub_cite_bound hf
        have hd : (t.drop (j + 4)).length = t.length - (j + 4) :=
          List.length_drop _ _
        have hih := ih g2 (t.drop (j + 4)) (by omega) (by omega)
        simp [hih]

theorem removeCites_eq (t : List Char) :
    removeCites t =
      match findSub citeTok t with
      | none => t
      | some j => t.take j ++ removeCites (t.drop (j + 4)) := by
  cases t with
  | nil => simp [removeCites, removeCitesF, findSub_cite_nil]
  | cons c rest =>
    simp only [removeCites, List.length_cons, removeCitesF]
    cases hf : findSub citeTok (c :: rest) with
    | none => rfl
    | some j =>
      have hj := findSub_cite_bound hf
      simp only [List.length_cons] at hj
      have hd : ((c :: rest).drop (j + 4)).length = rest.length + 1 - (j + 4) := by
        simpa using List.length_drop (j + 4) (c :: rest)
      have hih := removeCitesF_congr rest.length (((c :: rest).drop (j + 4)).length)
        ((c :: rest).drop (j + 4)) (by omega) (le_refl _)
      simp only [List.drop_succ_cons, List.length_drop] at hih
      simp [hih]

theorem removeCites_eq_none {t : List Char} (h : findSub citeTok t = none) :
    removeCites t = t := by
  rw [removeCites_eq, h]

theorem removeCites_eq_some {t : List Char} {j : Nat}
    (h : findSub citeTok t = some j) :
    removeCites t = t.take j ++ removeCites (t.drop (j + 4)) := by
  rw [removeCites_eq, h]

theorem goStripF_congr :
    ∀ f1 f2 t, t.length ≤ f1 → t.length ≤ f2 →
      goStripF f1 t = goStripF f2 t := by
  intro f1
  induction f1 with
  | zero =>
    intro f2 t h1 h2
    have ht : t = [] := List.length_eq_zero.mp (by omega)
    subst ht
    cases f2 with
    | zero => rfl
    | succ g => simp [goStripF, findSub_cite_nil]
  | succ g ih =>
    intro f2 t h1 h2
    cases f2 with
    | zero =>
      have ht : t = [] := List.length_eq_zero.mp (by omega)
      subst ht
      simp [goStripF, findSub_cite_nil]
    | succ g2 =>
      simp only [goStripF]
      cases hf : findSub citeTok t with
      | none => rfl
      | some j =>
        have hj := findSub_cite_bound hf
        have hd : (t.drop (j + 4)).length = t.length - (j + 4) :=
          List.length_drop _ _
        have hih := ih g2 (t.drop (j + 4)) (by omega) (by omega)
        simp [hih]

theorem goStrip_eq (t : List Char) :
    goStrip t =
      match findSub citeTok t with
      | none =>
        if 3 ≤ t.length then (false, t.drop (t.length - 3), t.take (t.length - 3))
        else (false, t, [])
      | some j =>
        if (t.drop (j + 4)).isEmpty then (true, [], t.take j)
        else
          let r := goStrip (t.drop (j + 4))
          (r.1, r.2.1, t.take j ++ r.2.2) := by
  cases t with
  | nil => simp [goStrip, goStripF, findSub_cite_nil]
  | cons c rest =>
    simp only [goStrip, List.length_cons, goStripF]
    cases hf : findSub citeTok (c :: rest) with
    | none => rfl
    | some j =>
      have hj := findSub_cite_bound hf
      simp only [List.length_cons] at hj
      have hd : (((c :: rest)).drop (j + 4)).length = rest.length + 1 - (j + 4) := by
        simpa using List.length_drop (j + 4) (c :: rest)
      have hih := goStripF_congr rest.length ((((c :: rest)).drop (j + 4)).length)
        (((c :: rest)).drop (j + 4)) (by omega) (le_refl _)
      simp only [List.drop_succ_cons, List.length_drop] at hih
      simp [hih]

theorem goStrip_eq_none {t : List Char} (h : findSub citeTok t = none) :
    goStrip t =
      if 3 ≤ t.length then (false, t.drop (t.length - 3), t.take (t.length - 3))
      else (false, t, []) := by
  rw [goStrip_eq, h]

theorem goStrip_eq_some {t : List Char} {j : Nat}
    (h : findSub citeTok t = some j) :
    goStrip t =
      if (t.drop (j + 4)).isEmpty then (true, [], t.take j)
      else
        ((goStrip (t.drop (j + 4))).1, (goStrip (t.drop (j + 4))).2.1,
          t.take j ++ (goStrip (t.drop (j + 4))).2.2) := by
  rw [goStrip_eq, h]

theorem findSub_append_shift {n x y : List Char}
    (hall : ∀ p, n.isPrefixOf ((x ++ y).drop p) = true → x.length ≤ p) :
    findSub n (x ++ y) = (findSub n y).map (x.length + ·) := by
  cases hy : findSub n y with
  | none =>
    cases hxy : findSub n (x ++ y) with
    | none => simp
    | some p =>
      exfalso
      have hocc := findSub_occurs hxy
      have hxp := hall p hocc
      obtain ⟨q, rfl⟩ : ∃ q, p = x.length + q := ⟨p - x.length, by omega⟩
      rw [List.drop_append q] at hocc
      have hno := findSub_none_no hy q
      rw [hno] at hocc
      exact Bool.false_ne_true hocc
  | some q =>
    have h1 : n.isPrefixOf ((x ++ y).drop (x.length + q)) = true := by
      rw [List.drop_append q]
      exact findSub_occurs hy
    have h2 : ∀ p, p < x.length + q → n.isPrefixOf ((x ++ y).drop p) = false := by
      intro p hp
      cases hb : n.isPrefixOf ((x ++ y).drop p) with
      | false => rfl
      | true =>
        exfalso
        have hxp := hall p hb
        obtain ⟨q', rfl⟩ : ∃ q', p = x.length + q' := ⟨p - x.length, by omega⟩
        rw [List.drop_append q'] at hb
        have hmin := findSub_min hy q' (by omega)
        rw [hmin] at hb
        exact Bool.false_ne_true hb
    rw [findSub_of_min h1 h2]
    simp

theorem removeCites_append_split {x y : List Char}
    (hall : ∀ p, citeTok.isPrefixOf ((x ++ y).drop p) = true → x.length ≤ p) :
    removeCites (x ++ y) = x ++ removeCites y := by
  cases hy : findSub citeTok y with
  | none =>
    have hnone : findSub citeTok (x ++ y) = none := by
      rw [findSub_append_shift hall, hy]
      rfl
    rw [removeCites_eq_none hnone, removeCites_eq_none hy]
  | some q =>
    have hsome : findSub citeTok (x ++ y) = some (x.length + q) := by
      rw [findSub_append_shift hall, hy]
      rfl
    rw [removeCites_eq_some hsome, removeCites_eq_some hy]
    rw [List.take_append q]
    have harith : x.length + q + 4 = x.length + (q + 4) := by omega
    rw [harith, List.drop_append (q + 4)]
    simp [List.append_assoc]

theorem findSub_append_first {a rest : List Char} {j : Nat}
    (hf : findSub citeTok a = some j) :
    findSub citeTok (a ++ rest) = some j := by
  have hj4 := findSub_cite_bound hf
  apply findSub_of_min
  · rw [List.drop_append_of_le_length (by omega)]
    exact pfx_append_ext rest (findSub_occurs hf)
  · intro q hq
    cases hb : citeTok.isPrefixOf ((a ++ rest).drop q) with
    | false => rfl
    | true =>
      exfalso
      rw [List.drop_append_of_le_length (by omega)] at hb
      have hfit : citeTok.isPrefixOf (a.drop q) = true := by
        apply pfx_append_fit hb
        rw [citeTok_length, List.length_drop]
        omega
      have hmin := findSub_min hf q hq
      rw [hmin] at hfit
      exact Bool.false_ne_true hfit

/-- Core invariant of the stripper loop: processing `a` and later feeding the
held-back carry in front of any future input computes exactly the reference
marker removal of the whole stream. -/
theorem goStrip_removeCites : ∀ (a rest : List Char),
    removeCites (a ++ rest) =
      (goStrip a).2.2 ++ removeCites ((goStrip a).2.1 ++ rest) := by
  suffices H : ∀ N a rest, a.length ≤ N →
      removeCites (a ++ rest) =
        (goStrip a).2.2 ++ removeCites ((goStrip a).2.1 ++ rest) by
    intro a rest
    exact H a.length a rest (le_refl _)
  intro N
  induction N with
  | zero =>
    intro a rest h
    have ha : a = [] := List.length_eq_zero.mp (by omega)
    subst ha
    simp [goStrip, goStripF]
  | succ n ih =>
    intro a rest hlen
    cases hf : findSub citeTok a with
    | none =>
      rw [goStrip_eq_none hf]
      by_cases h3 : 3 ≤ a.length
      · simp only [if_pos h3]
        have hxy : a.take (a.length - 3) ++ (a.drop (a.length - 3) ++ rest)
            = a ++ rest := by
          rw [← List.append_assoc, List.take_append_drop]
        have key : ∀ p, citeTok.isPrefixOf
            ((a.take (a.length - 3) ++ (a.drop (a.length - 3) ++ rest)).drop p) = true →
            (a.take (a.length - 3)).length ≤ p := by
          intro p hb
          rw [hxy] at hb
          simp only [List.length_take]
          by_contra hlt
          push_neg at hlt
          have hple : p + 4 ≤ a.length := by omega
          rw [List.drop_append_of_le_length (by omega)] at hb
          have hfit : citeTok.isPrefixOf (a.drop p) = true := by
            apply pfx_append_fit hb
            rw [citeTok_length, List.length_drop]
            omega
          have hno := findSub_none_no hf p
          rw [hno] at hfit
          exact Bool.false_ne_true hfit
        have hsplit := removeCites_append_split key
        rw [hxy] at hsplit
        exact hsplit
      · simp only [if_neg h3]
        simp
    | some j =>
      have hj4 : j + 4 ≤ a.length := findSub_cite_bound hf
      have hfirst := @findSub_append_first a rest _ hf
      rw [goStrip_eq_some hf]
      by_cases hemp : (a.drop (j + 4)).isEmpty
      · simp only [if_pos hemp]
        have hnil : a.drop (j + 4) = [] := by
          simpa [List.isEmpty_iff] using hemp
        rw [removeCites_eq_some hfirst]
        rw [List.take_append_of_le_length (by omega)]
        rw [List.drop_append_of_le_length (by omega), hnil]
      · simp only [if_neg hemp]
        rw [removeCites_eq_some hfirst]
        rw [List.take_append_of_le_length (by omega)]
        rw [List.drop_append_of_le_length (by omega)]
        have hrec := ih (a.drop (j + 4)) rest (by rw [List.length_drop]; omega)
        rw [hrec]
        simp [List.append_assoc]

theorem stripChunk_spec (st : StripSt) (chunk future : List Char) :
    removeCites ((st.carry ++ chunk) ++ future) =
      (stripChunk st chunk).2 ++
        removeCites ((stripChunk st chunk).1.carry ++ future) := by
  by_cases hc : chunk.isEmpty
  · have hnil : chunk = [] := by simpa [List.isEmpty_iff] using hc
    subst hnil
    simp [stripChunk]
  · simp only [stripChunk, hc, Bool.false_eq_true, if_false]
    exact goStrip_removeCites (st.carry ++ chunk) future

theorem runStrip_spec (frags : List (List Char)) :
    ∀ (st : StripSt) (future : List Char),
      removeCites ((st.carry ++ frags.flatten) ++ future) =
        (runStrip st frags).2 ++
          removeCites ((runStrip st frags).1.carry ++ future) := by
  induction frags with
  | nil =>
    intro st future
    simp [runStrip]
  | cons f fs ih =>
    intro st future
    simp only [runStrip, List.flatten_cons]
    have h1 := stripChunk_spec st f (fs.flatten ++ future)
    have h2 := ih (stripChunk st f).1 future
    calc removeCites ((st.carry ++ (f ++ fs.flatten)) ++ future)
        = removeCites ((st.carry ++ f) ++ (fs.flatten ++ future)) := by
          simp [List.append_assoc]
      _ = (stripChunk st f).2 ++
            removeCites ((stripChunk st f).1.carry ++ (fs.flatten ++ future)) := h1
      _ = (stripChunk st f).2 ++
            removeCites (((stripChunk st f).1.carry ++ fs.flatten) ++ future) := by
          simp [List.append_assoc]
      _ = (stripChunk st f).2 ++
            ((runStrip (stripChunk st f).1 fs).2 ++
              removeCites ((runStrip (stripChunk st f).1 fs).1.carry ++ future)) := by
          rw [h2]
      _ = ((stripChunk st f).2 ++ (runStrip (stripChunk st f).1 fs).2) ++
            removeCites ((runStrip (stripChunk st f).1 fs).1.carry ++ future) := by
          simp [List.append_assoc]

theorem goStripF_carry_le : ∀ (fuel : Nat) (t : List Char), t.length ≤ fuel →
    (goStripF fuel t).2.1.length ≤ 3 := by
  intro fuel
  induction fuel with
  | zero =>
    intro t h
    have ht : t = [] := List.length_eq_zero.mp (by omega)
    subst ht
    simp [goStripF]
  | succ n ih =>
    intro t h
    simp only [goStripF]
    cases hf : findSub citeTok t with
    | none =>
      by_cases h3 : 3 ≤ t.length
      · simp only [if_pos h3]
        show (t.drop (t.length - 3)).length ≤ 3
        rw [List.length_drop]
        omega
      · simp only [if_neg h3]
        show t.length ≤ 3
        omega
    | some j =>
      have hj := findSub_cite_bound hf
      by_cases hemp : (t.drop (j + 4)).isEmpty
      · simp [hemp]
      · simp only [if_neg hemp]
        exact ih (t.drop (j + 4)) (by rw [List.length_drop]; omega)

theorem stripChunk_carry_le (st : StripSt) (chunk : List Char)
    (h : st.carry.length ≤ 3) : (stripChunk st chunk).1.carry.length ≤ 3 := by
  by_cases hc : chunk.isEmpty
  · simpa [stripChunk, hc] using h
  · simp only [stripChunk, hc, Bool.false_eq_true, if_false]
    exact goStripF_carry_le _ _ (le_refl _)

theorem runStrip_carry_le (frags : List (List Char)) :
    ∀ st : StripSt, st.carry.length ≤ 3 →
      (runStrip st frags).1.carry.length ≤ 3 := by
  induction frags with
  | nil => intro st h; simpa [runStrip] using h
  | cons f fs ih =>
    intro st h
    simp only [runStrip]
    exact ih (stripChunk st f).1 (stripChunk_carry_le st f h)

theorem removeCites_short {t : List Char} (h : t.length < 4) :
    removeCites t = t := by
  rw [removeCites_eq]
  cases hf : findSub citeTok t with
  | none => rfl
  | some j =>
    have := findSub_cite_bound hf
    omega

/-- C7 (amended): feeding any fragment sequence of the decoded answer stream
to `createInlineCitationStripper` removes every `cite` marker — including
markers split across fragment boundaries — and emits all remaining text in
order with no duplication, holding back at most `startLen − 1 = 3`
characters at any fragment boundary; a held-back partial match is resolved
when more input arrives, but there is no end-of-stream flush, so the
concatenated emissions together with the final (never-flushed) carry — not
the emissions alone — equal the marker-free text of the whole stream. -/
theorem inline_cite_stripper_stream (frags : List (List Char)) :
    (runStrip stripInit frags).2 ++ (runStrip stripInit frags).1.carry
        = removeCites frags.flatten
    ∧ (runStrip stripInit frags).1.carry.length ≤ 3 := by
  have hcar : (runStrip stripInit frags).1.carry.length ≤ 3 := by
    apply runStrip_carry_le
    simp [stripInit]
  refine ⟨?_, hcar⟩
  have h := runStrip_spec frags stripInit []
  rw [show stripInit.carry = [] from rfl, List.nil_append, List.append_nil,
    List.append_nil] at h
  rw [@removeCites_short ((runStrip stripInit frags).1.carry) (by omega)] at h
  exact h.symm

/-- Counterexample to C7 as stated: for the fragments `["hi cite", " there"]`
the marker (even though wholly inside the first fragment) is removed, but
the concatenated emissions are `"hi  th"`, not the full marker-free text
`"hi  there"`: the trailing `"ere"` is held back at end-of-stream and never
flushed, contradicting the claimed end-of-stream flush. -/
theorem inline_cite_stripper_counterexample :
    (runStrip stripInit ["hi cite".toList, " there".toList]).2 = "hi  th".toList
    ∧ removeCites ("hi cite".toList ++ " there".toList) = "hi  there".toList
    ∧ (runStrip stripInit ["hi cite".toList, " there".toList]).2
        ≠ removeCites ("hi cite".toList ++ " there".toList) := by
  refine ⟨by decide, by decide, by decide⟩

/-! ## Retrieval matches and metadata

`PineconeMatch` mirrors the route's type of the same name; metadata fields
are optional strings (the route treats them as opaque values interpolated
into text).  JS `Map` / `Set` are modelled as insertion-ordered association
lists, and the RRF scores (JS numbers) as exact rationals. -/

structure Metadata where
  doc_id : Option String := none
  doc_title : Option String := none
  text : Option String := none
  section_path : Option String := none
  page_start : Option String := none
  page : Option String := none
  para_start : Option String := none
  para_end : Option String := none
  source_url : Option String := none
deriving DecidableEq, Repr

def emptyMeta : Metadata := {}

structure PineconeMatch where
  id : String
  score : Option ℚ
  metadata : Option Metadata
deriving DecidableEq, Repr

/-- JS `a || b` on a string-or-absent value: the empty string is falsy. -/
def jsOrStr (o : Option String) (b : String) : String :=
  match o with
  | some s => if s = "" then b else s
  | none => b

/-- JS truthiness of a string-or-absent value. -/
def jsTruthy (o : Option String) : Bool :=
  match o with
  | some s => decide (s ≠ "")
  | none => false

/-- The JS whitespace class used by `String.prototype.trim`. -/
def jsWs (c : Char) : Bool :=
  c = ' ' || c = '\t' || c = '\n' || c = '\r' || c = Char.ofNat 11 ||
    c = Char.ofNat 12 || c = Char.ofNat 0xa0 || c = Char.ofNat 0xfeff ||
    c = Char.ofNat 0x2028 || c = Char.ofNat 0x2029

def jsTrimL (l : List Char) : List Char :=
  ((l.dropWhile jsWs).reverse.dropWhile jsWs).reverse

def jsTrimS (s : String) : String := String.mk (jsTrimL s.toList)

/-- Association-list `Map.get`. -/
def assocGet {α : Type} (l : List (String × α)) (k : String) : Option α :=
  (l.find? (fun kv => decide (kv.1 = k))).map (fun kv => kv.2)

/-- Association-list `Map.set`: updates in place (keeping insertion order)
or appends a fresh key at the end, exactly like a JS `Map`. -/
def mapSet {α : Type} : List (String × α) → String → α → List (String × α)
  | [], k, v => [(k, v)]
  | kv :: t, k, v => if kv.1 = k then (k, v) :: t else kv :: mapSet t k v

/-! ## Reciprocal-rank fusion (`fuseResults`) -/

/-- Field-wise JS object spread `{...a, ...b}` on metadata records (keys of
`b` override keys of `a`). -/
def mergeMeta (a b : Metadata) : Metadata :=
  { doc_id := b.doc_id <|> a.doc_id
    doc_title := b.doc_title <|> a.doc_title
    text := b.text <|> a.text
    section_path := b.section_path <|> a.section_path
    page_start := b.page_start <|> a.page_start
    page := b.page <|> a.page
    para_start := b.para_start <|> a.para_start
    para_end := b.para_end <|> a.para_end
    source_url := b.source_url <|> a.source_url }

/-- The `addList` closure of `fuseResults`: walk one ranked list, adding the
RRF contribution `1/(k + idx + 1)` (`k = 60`) of each match and merging
metadata for ids already seen (existing/dense occurrence overriding). -/
def addListFrom (idx : Nat)
    (st : List (String × ℚ) × List (String × PineconeMatch)) :
    List PineconeMatch → List (String × ℚ) × List (String × PineconeMatch)
  | [] => st
  | m :: rest =>
    let rrf : ℚ := 1 / (60 + (idx : ℚ) + 1)
    let scores' := mapSet st.1 m.id ((assocGet st.1 m.id).getD 0 + rrf)
    let meta' :=
      match assocGet st.2 m.id with
      | none => mapSet st.2 m.id m
      | some existing =>
        mapSet st.2 m.id
          { id := m.id
            score := existing.score <|> m.score
            metadata :=
              some (mergeMeta (m.metadata.getD emptyMeta)
                (existing.metadata.getD emptyMeta)) }
    addListFrom (idx + 1) (scores', meta') rest

def fuseState (dense sparse : List PineconeMatch) :
    List (String × ℚ) × List (String × PineconeMatch) :=
  addListFrom 0 (addListFrom 0 ([], []) dense) sparse

def fuseScores (dense sparse : List PineconeMatch) : List (String × ℚ) :=
  (fuseState dense sparse).1

/-- Stable insertion into a list sorted by strictly descending score: ties
keep the earlier-inserted element first, matching the stable JS
`sort((a, b) => b[1] - a[1])`. -/
def insertDesc (x : String × ℚ) : List (String × ℚ) → List (String × ℚ)
  | [] => [x]
  | y :: ys => if x.2 ≥ y.2 then x :: y :: ys else y :: insertDesc x ys

def sortDesc : List (String × ℚ) → List (String × ℚ)
  | [] => []
  | x :: xs => insertDesc x (sortDesc xs)

def fuseResults (dense sparse : List PineconeMatch) (topK : Nat) :
    List PineconeMatch :=
  ((sortDesc (fuseScores dense sparse)).take topK).filterMap
    (fun kv => assocGet (fuseState dense sparse).2 kv.1)

def mkM (id : String) : PineconeMatch :=
  { id := id, score := none, metadata := none }

def dense4 : List PineconeMatch := [mkM "a", mkM "b", mkM "c"]

def sparse4 : List PineconeMatch := [mkM "b", mkM "d", mkM "a"]

/-- C4: on dense list `[a,b,c]` and sparse list `[b,d,a]` the fusion assigns
scores `a = 1/61 + 1/63`, `b = 1/62 + 1/61`, `c = 1/63`, `d = 1/62` (rank
`r` in a list contributes `1/(60 + r + 1)`, summed over both lists) and for
any requested top-K of at least 4 returns the deduplicated ids in the order
`b, a, d, c`. -/
theorem rrf_fusion_example (topK : Nat) (h : 4 ≤ topK) :
    fuseScores dense4 sparse4 =
      [("a", 1/61 + 1/63), ("b", 1/62 + 1/61), ("c", 1/63), ("d", (1 : ℚ)/62)]
    ∧ (fuseResults dense4 sparse4 topK).map (fun m => m.id)
        = ["b", "a", "d", "c"] := by
  have h1 : fuseScores dense4 sparse4 =
      [("a", 1/61 + 1/63), ("b", 1/62 + 1/61), ("c", 1/63), ("d", (1 : ℚ)/62)] := by
    simp [fuseScores, fuseState, addListFrom, assocGet, mapSet, dense4,
      sparse4, mkM, List.find?]
    norm_num
  refine ⟨h1, ?_⟩
  have hs : sortDesc (fuseScores dense4 sparse4) =
      [("b", 1/62 + 1/61), ("a", 1/61 + 1/63), ("d", (1 : ℚ)/62),
        ("c", (1 : ℚ)/63)] := by
    rw [h1]
    norm_num [sortDesc, insertDesc]
  unfold fuseResults
  rw [hs, List.take_of_length_le (by simp; omega)]
  simp [fuseState, addListFrom, assocGet, mapSet, dense4, sparse4, mkM,
    List.find?, mergeMeta, emptyMeta]

/-- Witness for C4 at the concrete top-K 4. -/
theorem rrf_fusion_example_witness :
    (fuseResults dense4 sparse4 4).map (fun m => m.id) = ["b", "a", "d", "c"] :=
  (rrf_fusion_example 4 (by decide)).2

/-! ## Sources formatter (`buildSources`) and the prompt's sources block -/

/-- One rendered source block (`matches.map((match, index) => ...)`). -/
def sourceBlock (index : Nat) (m : PineconeMatch) : String :=
  let md := m.metadata.getD emptyMeta
  let sectionStr :=
    if jsTruthy md.section_path then "Section: " ++ md.section_path.getD ""
    else ""
  let page := md.page_start.getD (md.page.getD "?")
  let paraStart := md.para_start.getD "?"
  let paraEnd := md.para_end.getD (md.para_start.getD "?")
  let header :=
    "Source " ++ toString (index + 1) ++ "\nchunk_id: " ++ m.id ++
      "\nDoc: " ++ jsOrStr md.doc_id "Unknown" ++ "\nPage: " ++ page ++
      "\nParagraphs: " ++ paraStart ++ "-" ++ paraEnd ++ "\n" ++ sectionStr
  let text := jsOrStr md.text ""
  header ++ "\nText: " ++ text

def buildSources (ms : List PineconeMatch) : String :=
  String.intercalate "\n\n---\n\n"
    (ms.enum.map (fun p => sourceBlock p.1 p.2))

/-- The `sourcesBlock` computed in `callOpenRouter` / `callOpenRouterStream`:
`sources.trim().length > 0 ? sources : "None provided."`. -/
def sourcesBlock (ms : List PineconeMatch) : String :=
  let sources := buildSources ms
  if 0 < (jsTrimS sources).length then sources else "None provided."

/-- C9: on an empty match list the sources formatter itself renders the
empty string, and the sources block handed to the answering model is the
literal `"None provided."` sentinel; for every match list the evidence
block in the prompt is non-empty. -/
theorem sources_block_never_empty :
    buildSources [] = ""
    ∧ sourcesBlock [] = "None provided."
    ∧ ∀ ms : List PineconeMatch, sourcesBlock ms ≠ "" := by
  refine ⟨rfl, rfl, ?_⟩
  intro ms
  unfold sourcesBlock
  by_cases h : 0 < (jsTrimS (buildSources ms)).length
  · simp only [if_pos h]
    intro hempty
    rw [hempty] at h
    simp [jsTrimS, jsTrimL] at h
  · simp only [if_neg h]
    decide

/-! ## Citation validator (the citation-resolution block of `POST`) -/

structure Citation where
  chunk_id : String
  doc_id : Option String
  page : Option String
  para_start : Option String
  para_end : Option String
  section_path : Option String
  source_url : Option String
deriving DecidableEq, Repr

/-- `matchMap.get(id)` for `matchMap = new Map(matches.map(m => [m.id, m]))`
(a duplicate id keeps the last-inserted value, as in a JS `Map`). -/
def matchMapGet (ms : List PineconeMatch) (id : String) :
    Option PineconeMatch :=
  ms.reverse.find? (fun m => decide (m.id = id))

/-- `[...new Set(citationIds)]`: deduplication keeping first occurrences in
order (JS `Set` iteration order is insertion order). -/
def dedupFirstAux (seen : List String) : List String → List String
  | [] => []
  | x :: xs =>
    if x ∈ seen then dedupFirstAux seen xs
    else x :: dedupFirstAux (x :: seen) xs

def dedupFirst (l : List String) : List String := dedupFirstAux [] l

/-- Resolution of one validated citation id back to provenance metadata. -/
def resolveCitation (ms : List PineconeMatch) (id : String) : Citation :=
  match matchMapGet ms id with
  | some m =>
    let md := m.metadata.getD emptyMeta
    { chunk_id := id, doc_id := md.doc_id
      page := md.page_start <|> md.page
      para_start := md.para_start, para_end := md.para_end
      section_path := md.section_path, source_url := md.source_url }
  | none =>
    { chunk_id := id, doc_id := none, page := none, para_start := none
      para_end := none, section_path := none, source_url := none }

/-- The citation pipeline of `POST`: dedup the claimed ids, keep only ids
present in the retrieved match set, resolve each to metadata. -/
def validateCitations (ms : List PineconeMatch)
    (citationIds : List String) : List Citation :=
  ((dedupFirst citationIds).filter
      (fun id => (matchMapGet ms id).isSome)).map
    (resolveCitation ms)

def metaX : Metadata :=
  { doc_id := some "DocX", page_start := some "3", para_start := some "1",
    para_end := some "2", section_path := some "Rule 35",
    source_url := some "/pdfs/docx.pdf" }

def matchX : PineconeMatch :=
  { id := "x", score := none, metadata := some metaX }

def metaY : Metadata := { doc_id := some "DocY", page_start := some "7" }

def matchY : PineconeMatch :=
  { id := "y", score := none, metadata := some metaY }

def matchZ : PineconeMatch := mkM "z"

/-- C5: the citation validator returns the model-claimed ids deduplicated in
first-occurrence order and filtered to ids present in the retrieved match
set, each resolved to its provenance metadata; every returned citation's
`chunk_id` is the id of a retrieved match (no hallucinated identifier
reaches the client); on matches `{x, y, z}` and claims `[x, q, x, y]` it
returns exactly `[x, y]` with their metadata. -/
theorem citation_validator_spec (ms : List PineconeMatch)
    (claimed : List String) :
    (validateCitations ms claimed).map (fun c => c.chunk_id)
        = (dedupFirst claimed).filter
            (fun id => ms.any (fun m => decide (m.id = id)))
    ∧ ((validateCitations ms claimed).all
        (fun c => ms.any (fun m => decide (m.id = c.chunk_id))) = true)
    ∧ validateCitations [matchX, matchY, matchZ] ["x", "q", "x", "y"]
        = [{ chunk_id := "x", doc_id := some "DocX", page := some "3",
             para_start := some "1", para_end := some "2",
             section_path := some "Rule 35",
             source_url := some "/pdfs/docx.pdf" },
           { chunk_id := "y", doc_id := some "DocY", page := some "7",
             para_start := none, para_end := none, section_path := none,
             source_url := none }] := by
  have hmem : ∀ id, (matchMapGet ms id).isSome
      = ms.any (fun m => decide (m.id = id)) := by
    intro id
    cases hfind : (matchMapGet ms id) with
    | none =>
      have hno : ¬ ∃ m ∈ ms.reverse, decide (m.id = id) = true := by
        intro ⟨m, hm, hp⟩
        have : (matchMapGet ms id).isSome = true :=
          List.find?_isSome.mpr ⟨m, hm, hp⟩
        rw [hfind] at this
        simp at this
      simp only [hfind, Option.isSome_none]
      symm
      rw [Bool.eq_false_iff]
      intro hany
      obtain ⟨m, hm, hp⟩ := List.any_eq_true.mp hany
      exact hno ⟨m, List.mem_reverse.mpr hm, hp⟩
    | some m =>
      have hsome : (matchMapGet ms id).isSome = true := by
        simp [hfind]
      obtain ⟨m', hm', hp'⟩ := List.find?_isSome.mp hsome
      simp only [hfind, Option.isSome_some]
      symm
      exact List.any_eq_true.mpr ⟨m', List.mem_reverse.mp hm', hp'⟩
  have hchunk : ∀ id, (resolveCitation ms id).chunk_id = id := by
    intro id
    unfold resolveCitation
    cases matchMapGet ms id <;> rfl
  refine ⟨?_, ?_, by decide⟩
  · unfold validateCitations
    rw [List.map_map]
    have hfun : (fun c => c.chunk_id) ∘ resolveCitation ms = id := by
      funext x
      exact hchunk x
    rw [hfun, List.map_id]
    congr 1
    funext id
    exact hmem id
  · rw [List.all_eq_true]
    intro c hc
    unfold validateCitations at hc
    obtain ⟨id, hid, rfl⟩ := List.mem_map.mp hc
    have hfilter := List.mem_filter.mp hid
    rw [hchunk id, ← hmem id]
    exact hfilter.2

/-! ## JSON values, `extractJson`, and the answer fallback path

`JSON.parse` is a platform builtin; `extractJson` is therefore parameterised
by an arbitrary partial parser (`String → Option Json`), so the theorems
below hold for every parser.  `Json` is a standard JSON value tree. -/

inductive Json where
  | null
  | bool (b : Bool)
  | num (q : ℚ)
  | str (s : String)
  | arr (items : List Json)
  | obj (fields : List (String × Json))

/-- Object field lookup; a duplicate key keeps the last value, as in the
result of `JSON.parse`. -/
def lookupLast (fields : List (String × Json)) (k : String) : Option Json :=
  (fields.reverse.find? (fun kv => decide (kv.1 = k))).map (fun kv => kv.2)

/-- JS `value?.key` access. -/
def jsGet (j : Json) (k : String) : Option Json :=
  match j with
  | .obj fs => lookupLast fs k
  | _ => none

/-- The regex span `/\{[\s\S]*\}/`: from the first `{` through the last `}`
of the text, when the latter comes after the former. -/
def braceSpan (s : String) : Option String :=
  let cs := s.toList
  match cs.findIdx? (fun c => decide (c = '\x7b')),
      (cs.reverse.findIdx? (fun c => decide (c = '\x7d'))).map
        (fun k => cs.length - 1 - k) with
  | some i, some j =>
    if i < j then some (String.mk ((cs.drop i).take (j - i + 1))) else none
  | _, _ => none

/-- `extractJson`: try the parser on the whole text; on failure extract the
brace span and try once more; on failure return `null`/`none`. -/
def extractJson (parse : String → Option Json) (text : String) : Option Json :=
  match parse text with
  | some v => some v
  | none =>
    match braceSpan text with
    | some sub => parse sub
    | none => none

def citeStart : String := "cite"

/-- `stripInlineCitations`: `text.replace(/cite[^]*/g, "").trim()` with the
empty-text early return — everything from the first occurrence of `cite`
through the end of the string is removed, then the result is trimmed. -/
def stripInlineCitations (s : String) : String :=
  if s = "" then s
  else
    match findSub citeTok s.toList with
    | some j => String.mk (jsTrimL (s.toList.take j))
    | none => String.mk (jsTrimL s.toList)

/-- `typeof parsed?.answer === "string" ? stripInlineCitations(...) : ""`. -/
def answerOfParsed (parsed : Option Json) : String :=
  match parsed with
  | some j =>
    match jsGet j "answer" with
    | some (.str s) => stripInlineCitations s
    | _ => ""
  | none => ""

def citationIdOfItem : Json → Option String
  | .str s => some s
  | .obj fs =>
    match lookupLast fs "chunk_id" with
    | some (.str s) => some s
    | _ => none
  | _ => none

/-- The claimed citation ids drawn from `parsed?.citations`. -/
def citationIdsOfParsed (parsed : Option Json) : List String :=
  match parsed with
  | some j =>
    match jsGet j "citations" with
    | some (.arr items) => items.filterMap citationIdOfItem
    | _ => []
  | none => []

def fallbackAnswer : String :=
  "I could not extract a supported answer from the sources."

/-- `answer || "I could not extract a supported answer from the sources."`
— the final answer delivered both in the non-streaming JSON response and in
the streaming `done` event. -/
def finalAnswerOfParsed (parsed : Option Json) : String :=
  let a := answerOfParsed parsed
  if a = "" then fallbackAnswer else a

/-- C8: a directly parseable response is used as parsed; otherwise the
first-`{`-to-last-`}` span is extracted and parsed; if that also fails the
request does not crash: the answer is treated as empty, the citations as
empty, and the fixed "could not extract a supported answer" message is
substituted as the returned answer.  Shown for every parser, plus a
concrete brace-span extraction. -/
theorem malformed_model_output_fallback (parse : String → Option Json)
    (text : String) :
    extractJson parse text
        = (match parse text with
           | some v => some v
           | none => (braceSpan text).bind parse)
    ∧ answerOfParsed none = ""
    ∧ citationIdsOfParsed none = []
    ∧ finalAnswerOfParsed none
        = "I could not extract a supported answer from the sources."
    ∧ braceSpan "noise \x7b\"answer\":1\x7d tail" = some "\x7b\"answer\":1\x7d" := by
  refine ⟨?_, rfl, rfl, rfl, by decide⟩
  unfold extractJson
  cases parse text with
  | some v => rfl
  | none =>
    cases braceSpan text with
    | some sub => rfl
    | none => rfl

/-! ## Substring machinery for the citation-stripping claims -/

def hasSub (n h : List Char) : Bool := (findSub n h).isSome

theorem pfx_refl (l : List Char) : l.isPrefixOf l = true := by
  induction l with
  | nil => rfl
  | cons c t ih => simp [List.isPrefixOf, ih]

theorem hasSub_iff_exists {n h : List Char} :
    hasSub n h = true ↔ ∃ p, n.isPrefixOf (h.drop p) = true := by
  constructor
  · intro hs
    unfold hasSub at hs
    cases hf : findSub n h with
    | none => rw [hf] at hs; simp at hs
    | some p => exact ⟨p, findSub_occurs hf⟩
  · intro ⟨p, hp⟩
    unfold hasSub
    cases hf : findSub n h with
    | none =>
      have := findSub_none_no hf p
      rw [this] at hp
      exact absurd hp (by simp)
    | some q => rfl

theorem pfx_take_elim {n y : List Char} {q : Nat}
    (h : n.isPrefixOf (y.take q) = true) : n.isPrefixOf y = true := by
  induction n generalizing y q with
  | nil => simp [List.isPrefixOf]
  | cons a as ih =>
    cases y with
    | nil =>
      simp only [List.take_nil] at h
      simpa using h
    | cons b bs =>
      cases q with
      | zero => simp [List.isPrefixOf] at h
      | succ r =>
        simp only [List.take_succ_cons, List.isPrefixOf,
          Bool.and_eq_true] at h ⊢
        exact ⟨h.1, ih h.2⟩

theorem pfx_split {n x y : List Char}
    (h : n.isPrefixOf (x ++ y) = true) (hl : x.length ≤ n.length) :
    x.isPrefixOf n = true ∧ (n.drop x.length).isPrefixOf y = true := by
  induction x generalizing n with
  | nil => simpa [List.isPrefixOf] using h
  | cons b bs ih =>
    cases n with
    | nil => simp at hl
    | cons a as =>
      simp only [List.cons_append, List.isPrefixOf, Bool.and_eq_true] at h
      have hrec := ih h.2 (by simpa using hl)
      have hab : a = b := by simpa [beq_iff_eq] using h.1
      simp only [List.isPrefixOf, Bool.and_eq_true, List.length_cons,
        List.drop_succ_cons]
      exact ⟨⟨by simp [beq_iff_eq, hab], hrec.1⟩, hrec.2⟩

theorem exists_dropWhile_drop (p : Char → Bool) (l : List Char) :
    ∃ m, l.dropWhile p = l.drop m := by
  induction l with
  | nil => exact ⟨0, rfl⟩
  | cons c t ih =>
    by_cases hc : p c = true
    · obtain ⟨m, hm⟩ := ih
      exact ⟨m + 1, by simp [List.dropWhile, hc, hm]⟩
    · exact ⟨0, by simp [List.dropWhile, hc]⟩

theorem exists_trim_drop_take (l : List Char) :
    ∃ m k, jsTrimL l = (l.drop m).take k := by
  obtain ⟨m, hm⟩ := exists_dropWhile_drop jsWs l
  obtain ⟨m2, hm2⟩ := exists_dropWhile_drop jsWs (l.drop m).reverse
  refine ⟨m, (l.drop m).length - m2, ?_⟩
  unfold jsTrimL
  rw [hm, hm2, List.reverse_drop]
  simp

theorem hasSub_of_drop_take {n x : List Char} {m k : Nat}
    (h : hasSub n ((x.drop m).take k) = true) : hasSub n x = true := by
  obtain ⟨p, hp⟩ := hasSub_iff_exists.mp h
  rw [List.drop_take] at hp
  have h2 := pfx_take_elim hp
  rw [List.drop_drop] at h2
  exact hasSub_iff_exists.mpr ⟨m + p, h2⟩

theorem hasSub_trim {n l : List Char}
    (h : hasSub n l = false) : hasSub n (jsTrimL l) = false := by
  obtain ⟨m, k, he⟩ := exists_trim_drop_take l
  cases hb : hasSub n (jsTrimL l) with
  | false => rfl
  | true =>
    rw [he] at hb
    rw [hasSub_of_drop_take hb] at h
    exact absurd h (by simp)

theorem hasSub_take_first {s : List Char} {j : Nat}
    (hf : findSub citeTok s = some j) : hasSub citeTok (s.take j) = false := by
  cases hb : hasSub citeTok (s.take j) with
  | false => rfl
  | true =>
    exfalso
    obtain ⟨p, hp⟩ := hasSub_iff_exists.mp hb
    rw [List.drop_take] at hp
    have hlen := pfx_length_le hp
    rw [citeTok_length, List.length_take, List.length_drop] at hlen
    have hmin : min (j - p) (s.length - p) ≤ j - p := Nat.min_le_left _ _
    have hpj : p < j := by omega
    have hocc := pfx_take_elim hp
    have hm := findSub_min hf p hpj
    rw [hm] at hocc
    exact Bool.false_ne_true hocc

/-- C10 (amended): the final answer delivered to the client (both in the
non-streaming response and in the streaming `done` event) equals the parsed
answer string with everything from the first occurrence of `cite` through
the end removed and the result trimmed — except that when that result is
empty the fixed fallback message is substituted; a delivered non-fallback
answer never contains the substring `cite`, and all text following such an
occurrence is dropped, not preserved. -/
theorem answer_cite_truncation (s a b : String)
    (hnone : findSub citeTok a.toList = none) :
    finalAnswerOfParsed (some (Json.obj [("answer", Json.str s)]))
        = (if stripInlineCitations s = "" then fallbackAnswer
           else stripInlineCitations s)
    ∧ hasSub citeTok (stripInlineCitations s).toList = false
    ∧ stripInlineCitations (a ++ "cite" ++ b) = String.mk (jsTrimL a.toList) := by
  refine ⟨rfl, ?_, ?_⟩
  · by_cases hs : s = ""
    · subst hs
      decide
    · simp only [stripInlineCitations, if_neg hs]
      cases hf : findSub citeTok s.toList with
      | some j =>
        show hasSub citeTok (jsTrimL (s.toList.take j)) = false
        exact hasSub_trim (hasSub_take_first hf)
      | none =>
        show hasSub citeTok (jsTrimL s.toList) = false
        apply hasSub_trim
        unfold hasSub
        rw [hf]
        rfl
  · have hdata : (a ++ "cite" ++ b).toList
        = a.toList ++ (citeTok ++ b.toList) := by
      simp [citeTok]
    have hfind : findSub citeTok ((a ++ "cite" ++ b).toList)
        = some a.toList.length := by
      rw [hdata]
      apply findSub_of_min
      · rw [List.drop_left]
        exact pfx_append_ext _ (pfx_refl citeTok)
      · intro q hq
        cases hb : citeTok.isPrefixOf ((a.toList ++ (citeTok ++ b.toList)).drop q) with
        | false => rfl
        | true =>
          exfalso
          by_cases hc : q + 4 ≤ a.toList.length
          · rw [List.drop_append_of_le_length (by omega)] at hb
            have hfit := pfx_append_fit hb
              (by rw [citeTok_length, List.length_drop]; omega)
            have hn := findSub_none_no hnone q
            rw [hn] at hfit
            exact Bool.false_ne_true hfit
          · rw [List.drop_append_of_le_length (by omega)] at hb
            have hdlen : (a.toList.drop q).length = a.toList.length - q :=
              List.length_drop _ _
            have hsplit := pfx_split hb
              (by rw [hdlen, citeTok_length]; omega)
            have h2 := hsplit.2
            have h3 : (citeTok.drop (a.toList.drop q).length).isPrefixOf citeTok
                = true := by
              apply pfx_append_fit h2
              rw [List.length_drop, citeTok_length]
              omega
            have hcases : (a.toList.drop q).length = 1
                ∨ (a.toList.drop q).length = 2
                ∨ (a.toList.drop q).length = 3 := by
              rw [hdlen]
              omega
            rcases hcases with hv | hv | hv <;> rw [hv] at h3 <;>
              exact absurd h3 (by decide)
    have hne : ¬ (a ++ "cite" ++ b) = "" := by
      intro he
      have hl : (a ++ "cite" ++ b).toList = [] := by rw [he]; rfl
      rw [hdata] at hl
      simp [citeTok] at hl
    simp only [stripInlineCitations, if_neg hne, hfind]
    rw [hdata, List.take_left]

/-- Counterexample to C10 as stated: for the parsed answer `"cite 123"` the
stripped-and-trimmed text is empty, so the client receives the fixed
fallback message, not that text. -/
theorem answer_cite_truncation_counterexample :
    stripInlineCitations "cite 123" = ""
    ∧ finalAnswerOfParsed (some (Json.obj [("answer", Json.str "cite 123")]))
        = "I could not extract a supported answer from the sources."
    ∧ finalAnswerOfParsed (some (Json.obj [("answer", Json.str "cite 123")]))
        ≠ stripInlineCitations "cite 123" := by
  refine ⟨rfl, rfl, by decide⟩

/-- Witness for C10 (amended) at a concrete answer whose `cite` marker and
tail are dropped. -/
theorem answer_cite_truncation_witness :
    stripInlineCitations ("An answer. " ++ "cite" ++ " c1, c2") = "An answer." :=
  ((answer_cite_truncation "x" "An answer. " " c1, c2" (by decide)).2.2).trans
    (by decide)

/-! ## Empty-retrieval behaviour of the request pipeline

After retrieval, `POST` proceeds unconditionally to the chat-completion
call: the only test of `matches.length` (route.ts line 851) merely gates a
timing log, and no branch returns a fixed answer.  `afterRetrieval` embeds
that continuation as the action the handler takes next. -/

inductive NextStep where
  | callCompletion (sourcesBlockStr : String)
  | respondFixed (answer : String) (citations : List Citation)
deriving DecidableEq, Repr

def afterRetrieval (ms : List PineconeMatch) : NextStep :=
  NextStep.callCompletion (sourcesBlock ms)

/-- C3 (code behaviour at the failing input): with zero retrieval matches
the handler does not short-circuit: it calls the completion service with
the `"None provided."` sources block, and for no match set does it respond
with a fixed answer instead of calling the completion service. -/
theorem empty_retrieval_calls_completion :
    afterRetrieval [] = NextStep.callCompletion "None provided."
    ∧ ∀ (ms : List PineconeMatch) (ans : String) (cits : List Citation),
        afterRetrieval ms ≠ NextStep.respondFixed ans cits := by
  refine ⟨rfl, ?_⟩
  intro ms ans cits h
  simp [afterRetrieval] at h

/-! ## SHA-256 (model of node `crypto.createHash("sha256")`)

A standard FIPS 180-4 implementation over byte lists, with 32-bit words
represented as `Nat` reduced mod `2^32`.  Only the shape of the resulting
hex digest matters for the chunk-id claims; the implementation is the
usual schedule/compression pipeline. -/

def w32 (n : Nat) : Nat := n % 4294967296

def rotr32 (n x : Nat) : Nat := w32 ((x >>> n) ||| (x <<< (32 - n)))

def bsig0 (x : Nat) : Nat := (rotr32 2 x) ^^^ (rotr32 13 x) ^^^ (rotr32 22 x)

def bsig1 (x : Nat) : Nat := (rotr32 6 x) ^^^ (rotr32 11 x) ^^^ (rotr32 25 x)

def ssig0 (x : Nat) : Nat := (rotr32 7 x) ^^^ (rotr32 18 x) ^^^ (x >>> 3)

def ssig1 (x : Nat) : Nat := (rotr32 17 x) ^^^ (rotr32 19 x) ^^^ (x >>> 10)

def chFn (x y z : Nat) : Nat := (x &&& y) ^^^ ((x ^^^ 4294967295) &&& z)

def majFn (x y z : Nat) : Nat := (x &&& y) ^^^ (x &&& z) ^^^ (y &&& z)

def K256 : List Nat :=
  [1116352408, 1899447441, 3049323471, 3921009573, 961987163,
   1508970993, 2453635748, 2870763221, 3624381080, 310598401,
   607225278, 1426881987, 1925078388, 2162078206, 2614888103,
   3248222580, 3835390401, 4022224774, 264347078, 604807628,
   770255983, 1249150122, 1555081692, 1996064986, 2554220882,
   2821834349, 2952996808, 3210313671, 3336571891, 3584528711,
   113926993, 338241895, 666307205, 773529912, 1294757372,
   1396182291, 1695183700, 1986661051, 2177026350, 2456956037,
   2730485921, 2820302411, 3259730800, 3345764771, 3516065817,
   3600352804, 4094571909, 275423344, 430227734, 506948616,
   659060556, 883997877, 958139571, 1322822218, 1537002063,
   1747873779, 1955562222, 2024104815, 2227730452, 2361852424,
   2428436474, 2756734187, 3204031479, 3329325298]

def H256 : List Nat :=
  [1779033703, 3144134277, 1013904242, 2773480762, 1359893119,
   2600822924, 528734635, 1541459225]

def be64 (n : Nat) : List Nat :=
  [(n >>> 56) % 256, (n >>> 48) % 256, (n >>> 40) % 256, (n >>> 32) % 256,
   (n >>> 24) % 256, (n >>> 16) % 256, (n >>> 8) % 256, n % 256]

/-- Merkle–Damgård padding: `0x80`, zeros to 56 mod 64, 64-bit bit length. -/
def padMsg (bytes : List Nat) : List Nat :=
  let l := bytes.length
  let zeros := (64 - ((l + 9) % 64)) % 64
  bytes ++ [0x80] ++ List.replicate zeros 0 ++ be64 (l * 8)

def groupN (n : Nat) : Nat → List Nat → List (List Nat)
  | 0, _ => []
  | _, [] => []
  | fuel + 1, l => l.take n :: groupN n fuel (l.drop n)

def bytesToWord (b : List Nat) : Nat :=
  b.foldl (fun acc x => acc * 256 + x) 0

/-- The 64-entry message schedule from a 16-word block. -/
def extendSchedule (ws : List Nat) : List Nat :=
  (List.range 48).foldl
    (fun acc _ =>
      let n := acc.length
      let x := w32 (ssig1 (acc.getD (n - 2) 0) + acc.getD (n - 7) 0 +
        ssig0 (acc.getD (n - 15) 0) + acc.getD (n - 16) 0)
      acc ++ [x]) ws

def compressStep (st : List Nat) (wk : Nat × Nat) : List Nat :=
  match st with
  | [a, b, c, d, e, f, g, h] =>
    let t1 := w32 (h + bsig1 e + chFn e f g + wk.2 + wk.1)
    let t2 := w32 (bsig0 a + majFn a b c)
    [w32 (t1 + t2), a, b, c, w32 (d + t1), e, f, g]
  | _ => st

/-- One block: run the 64 rounds and add the result into the hash state. -/
def compressBlock (hs : List Nat) (block : List Nat) : List Nat :=
  let ws := extendSchedule (groupN 4 block.length block |>.map bytesToWord)
  let fin := (ws.zip K256).foldl compressStep hs
  List.zipWith (fun x y => w32 (x + y)) hs fin

def sha256Words (bytes : List Nat) : List Nat :=
  let padded := padMsg bytes
  (groupN 64 padded.length padded).foldl compressBlock H256

def hexChar (n : Nat) : Char :=
  if n < 10 then Char.ofNat ('0'.toNat + n) else Char.ofNat ('a'.toNat + n - 10)

def wordToHex (w : Nat) : List Char :=
  (List.range 8).map (fun i => hexChar ((w >>> ((7 - i) * 4)) % 16))

/-- The lowercase hex digest, as produced by `.digest("hex")`. -/
def sha256Hex (bytes : List Nat) : String :=
  String.mk ((sha256Words bytes).foldr (fun w acc => wordToHex w ++ acc) [])

/-- UTF-8 encoding of one character (what `hash.update(string)` hashes). -/
def utf8Char (c : Char) : List Nat :=
  let n := c.toNat
  if n < 0x80 then [n]
  else if n < 0x800 then [0xc0 ||| (n >>> 6), 0x80 ||| (n % 64)]
  else if n < 0x10000 then
    [0xe0 ||| (n >>> 12), 0x80 ||| ((n >>> 6) % 64), 0x80 ||| (n % 64)]
  else
    [0xf0 ||| (n >>> 18), 0x80 ||| ((n >>> 12) % 64), 0x80 ||| ((n >>> 6) % 64),
     0x80 ||| (n % 64)]

def utf8Bytes (s : String) : List Nat :=
  s.toList.foldr (fun c acc => utf8Char c ++ acc) []

/-! ## Ingestion chunk builder (`buildChunksForFile`)

The embedding covers the chunk-building loop over the per-document
`contentItems` sequence (the element filter and section-path resolution
upstream of it are not needed by the claims; the theorems hold for every
item sequence, normalized or not). -/

def MIN_PARAS : Nat := 4
def MAX_PARAS : Nat := 6
def MIN_WORDS : Nat := 350
def MAX_WORDS : Nat := 800
def PDF_BASE_URL : String := "/pdfs"

/-- `countWords`: `text.trim().split(/\s+/).length` with the `!text` early
return; splitting the empty trimmed string yields `[""]` of length 1. -/
def countRunsAux (inWord : Bool) : List Char → Nat
  | [] => 0
  | c :: t =>
    if jsWs c then countRunsAux false t
    else (if inWord then 0 else 1) + countRunsAux true t

def countWords (text : String) : Nat :=
  if text = "" then 0
  else
    let t := jsTrimL text.toList
    if t = [] then 1 else countRunsAux false t

def isSlugChar (c : Char) : Bool :=
  ('a' ≤ c && c ≤ 'z') || ('0' ≤ c && c ≤ '9')

def collapseDash : List Char → List Char
  | [] => []
  | [c] => [c]
  | c :: d :: t =>
    if c = '-' && d = '-' then collapseDash (d :: t)
    else c :: collapseDash (d :: t)

/-- `slugify`: lowercase, each maximal run of non-`[a-z0-9]` characters
becomes one `-`, leading/trailing `-` stripped, truncated to 60. -/
def slugify (value : String) : String :=
  let lowered := value.toList.map Char.toLower
  let dashed := collapseDash (lowered.map (fun c => if isSlugChar c then c else '-'))
  let stripped :=
    ((dashed.dropWhile (fun c => c = '-')).reverse.dropWhile
      (fun c => c = '-')).reverse
  String.mk (stripped.take 60)

/-- `makeChunkId`: slug, ordinal, and the first 16 hex digits of the
SHA-256 of `docId|index|element_ids.join("|")`. -/
def makeChunkId (docId : String) (index : Nat) (elementIds : List String) :
    String :=
  slugify docId ++ "-" ++ toString index ++ "-" ++
    (sha256Hex (utf8Bytes (docId ++ "|" ++ toString index ++ "|" ++
      String.intercalate "|" elementIds))).take 16

def hexCharUpper (n : Nat) : Char :=
  if n < 10 then Char.ofNat ('0'.toNat + n) else Char.ofNat ('A'.toNat + n - 10)

def isUriUnreserved (c : Char) : Bool :=
  ('A' ≤ c && c ≤ 'Z') || ('a' ≤ c && c ≤ 'z') || ('0' ≤ c && c ≤ '9') ||
    c = '-' || c = '_' || c = '.' || c = '!' || c = '~' || c = '*' ||
    c = Char.ofNat 39 || c = '(' || c = ')'

def encodeURIComponent (s : String) : String :=
  String.mk (s.toList.foldr
    (fun c acc =>
      (if isUriUnreserved c then [c]
       else (utf8Char c).foldr
         (fun b bacc => '%' :: hexCharUpper (b / 16) :: hexCharUpper (b % 16) :: bacc)
         []) ++ acc)
    [])

structure ContentItem where
  element_id : String
  text : String
  page_number : Int
  para_index : Nat
  section_path : String
  content_type : String
  doc_id : Option String
deriving DecidableEq, Repr

structure ChunkAcc where
  doc_id : String
  doc_title : String
  section_path : String
  page_start : Int
  page_end : Int
  para_start : Nat
  para_end : Nat
  element_ids : List String
  text_parts : List String
  word_count : Nat
  para_count : Nat
  content_types : List String
deriving DecidableEq, Repr

structure Chunk where
  chunk_id : String
  doc_id : String
  doc_title : String
  page_start : Int
  page_end : Int
  para_start : Nat
  para_end : Nat
  section_path : String
  content_type : String
  element_ids : List String
  text : String
  source_url : String
  chunk_index : Nat
deriving DecidableEq, Repr

/-- Insertion into the JS `Set` of content types (insertion order kept). -/
def addSet (l : List String) (x : String) : List String :=
  if x ∈ l then l else l ++ [x]

/-- `resolvedDocId.replace(/\.pdf$/i, "")`. -/
def dropPdfExt (s : String) : String :=
  let cs := s.toList
  if 4 ≤ cs.length && decide ((cs.drop (cs.length - 4)).map Char.toLower
      = ".pdf".toList) then
    String.mk (cs.take (cs.length - 4))
  else s

/-- The `flushChunk` closure: id from `makeChunkId`, text parts joined with
a blank line, single or `"mixed"` content type, page-anchored source URL. -/
def flushChunk (acc : ChunkAcc) (idx : Nat) : Chunk :=
  { chunk_id := makeChunkId acc.doc_id idx acc.element_ids
    doc_id := acc.doc_id
    doc_title := acc.doc_title
    page_start := acc.page_start
    page_end := acc.page_end
    para_start := acc.para_start
    para_end := acc.para_end
    section_path := acc.section_path
    content_type :=
      if acc.content_types.length = 1 then acc.content_types.headD ""
      else "mixed"
    element_ids := acc.element_ids
    text := String.intercalate "\n\n" acc.text_parts
    source_url := PDF_BASE_URL ++ "/" ++ encodeURIComponent acc.doc_id ++
      "#page=" ++ toString acc.page_start
    chunk_index := idx }

/-- Opening a fresh accumulator seeded with one item (both the initial open
and the re-open after a flush use this same record). -/
def seedAcc (fallbackDocId : String) (docTitle : Option String)
    (item : ContentItem) : ChunkAcc :=
  let resolvedDocId := jsOrStr item.doc_id fallbackDocId
  { doc_id := resolvedDocId
    doc_title := jsOrStr docTitle (dropPdfExt resolvedDocId)
    section_path := item.section_path
    page_start := item.page_number
    page_end := item.page_number
    para_start := item.para_index
    para_end := item.para_index
    element_ids := [item.element_id]
    text_parts := [item.text]
    word_count := countWords item.text
    para_count := 1
    content_types := [item.content_type] }

/-- The flush decision of the loop body, in the code's exact form:
section change, page change, `para_count >= MAX_PARAS`, or word overflow
guarded by `para_count >= MIN_PARAS`. -/
def shouldFlush (cur : ChunkAcc) (item : ContentItem) : Bool :=
  let sectionChanged := decide (item.section_path ≠ cur.section_path)
  let pageChanged := decide (item.page_number ≠ cur.page_end)
  let nextWordCount := cur.word_count + countWords item.text
  let tooManyParas := decide (cur.para_count ≥ MAX_PARAS)
  let wordsOverflow :=
    decide (nextWordCount > MAX_WORDS) && decide (cur.para_count ≥ MIN_PARAS)
  sectionChanged || pageChanged || tooManyParas || wordsOverflow

/-- Merging an item into the open accumulator. -/
def mergeItem (cur : ChunkAcc) (item : ContentItem) : ChunkAcc :=
  { cur with
    page_end := item.page_number
    para_end := item.para_index
    element_ids := cur.element_ids ++ [item.element_id]
    text_parts := cur.text_parts ++ [item.text]
    word_count := cur.word_count + countWords item.text
    para_count := cur.para_count + 1
    content_types := addSet cur.content_types item.content_type }

/-- One iteration of the `for (const item of contentItems)` loop; the state
is (open accumulator, chunkIndex, emitted chunks). -/
def chunkStep (fallbackDocId : String) (docTitle : Option String)
    (st : Option ChunkAcc × Nat × List Chunk) (item : ContentItem) :
    Option ChunkAcc × Nat × List Chunk :=
  match st.1 with
  | none => (some (seedAcc fallbackDocId docTitle item), st.2.1, st.2.2)
  | some cur =>
    if shouldFlush cur item then
      (some (seedAcc fallbackDocId docTitle item), st.2.1 + 1,
        st.2.2 ++ [flushChunk cur st.2.1])
    else
      (some (mergeItem cur item), st.2.1, st.2.2)

/-- The unconditional final flush after the loop. -/
def finishChunks (st : Option ChunkAcc × Nat × List Chunk) : List Chunk :=
  match st.1 with
  | some cur => st.2.2 ++ [flushChunk cur st.2.1]
  | none => st.2.2

/-- `buildChunksForFile` from the content items on: the loop followed by
the unconditional final flush. -/
def buildChunksForFile (fallbackDocId : String) (docTitle : Option String)
    (items : List ContentItem) : List Chunk :=
  finishChunks (items.foldl (chunkStep fallbackDocId docTitle) (none, 0, []))

/-! ## Chunker invariants -/

def chunkOk (c : Chunk) : Bool := decide (c.element_ids.length ≤ MAX_PARAS)

def accOk (acc : ChunkAcc) : Prop :=
  acc.para_count = acc.element_ids.length ∧ acc.para_count ≤ MAX_PARAS

def stOk (st : Option ChunkAcc × Nat × List Chunk) : Prop :=
  (∀ acc, st.1 = some acc → accOk acc) ∧ st.2.2.all chunkOk = true

theorem flushChunk_chunkOk {acc : ChunkAcc} (idx : Nat) (h : accOk acc) :
    chunkOk (flushChunk acc idx) = true := by
  unfold accOk at h
  unfold chunkOk flushChunk
  simp only [decide_eq_true_eq]
  omega

theorem seedAcc_accOk (fb : String) (dt : Option String) (item : ContentItem) :
    accOk (seedAcc fb dt item) := by
  unfold accOk seedAcc
  simp [MAX_PARAS]

theorem chunkStep_stOk (fb : String) (dt : Option String)
    (item : ContentItem) {st : Option ChunkAcc × Nat × List Chunk}
    (h : stOk st) : stOk (chunkStep fb dt st item) := by
  unfold chunkStep
  cases hacc : st.1 with
  | none =>
    refine ⟨?_, h.2⟩
    intro acc ha
    simp only [Option.some.injEq] at ha
    rw [← ha]
    exact seedAcc_accOk fb dt item
  | some cur =>
    have hcur := h.1 cur hacc
    by_cases hfl : shouldFlush cur item = true
    · simp only [hfl, if_pos]
      constructor
      · intro acc ha
        simp only [Option.some.injEq] at ha
        rw [← ha]
        exact seedAcc_accOk fb dt item
      · rw [List.all_append]
        simp only [Bool.and_eq_true]
        exact ⟨h.2, by simp [flushChunk_chunkOk st.2.1 hcur]⟩
    · simp only [hfl, if_neg, Bool.not_eq_true]
      refine ⟨?_, h.2⟩
      intro acc ha
      simp only [Option.some.injEq] at ha
      rw [← ha]
      have hnoMax : ¬ cur.para_count ≥ MAX_PARAS := by
        intro hge
        apply hfl
        unfold shouldFlush
        simp [hge]
      unfold accOk at hcur
      unfold accOk mergeItem
      unfold MAX_PARAS at hnoMax hcur ⊢
      simp only [List.length_append, List.length_cons, List.length_nil]
      omega

theorem finishChunks_all {p : Chunk → Bool} {st : Option ChunkAcc × Nat × List Chunk}
    (h2 : st.2.2.all p = true)
    (hflush : ∀ cur, st.1 = some cur → p (flushChunk cur st.2.1) = true) :
    (finishChunks st).all p = true := by
  unfold finishChunks
  cases hfin : st.1 with
  | none => exact h2
  | some cur =>
    rw [List.all_append]
    simp [h2, hflush cur hfin]

theorem foldl_chunkStep_stOk (fb : String) (dt : Option String)
    (items : List ContentItem) :
    ∀ st, stOk st → stOk (items.foldl (chunkStep fb dt) st) := by
  induction items with
  | nil => intro st h; simpa using h
  | cons item rest ih =>
    intro st h
    simp only [List.foldl_cons]
    exact ih _ (chunkStep_stOk fb dt item h)

/-- C2: every chunk the builder produces (final chunk included, hence in
particular every non-final chunk) consists of at most `MAX_PARAS = 6`
paragraphs; and when the incoming item stays in the accumulator's section
and page and the accumulator has fewer than `MIN_PARAS = 4` paragraphs, the
builder never flushes — so a flush for word overflow past
`MAX_WORDS = 800` can only happen with `para_count ≥ MIN_PARAS` at the
triggering item. -/
theorem chunk_size_policy (fb : String) (dt : Option String)
    (items : List ContentItem) (cur : ChunkAcc) (item : ContentItem)
    (hsec : item.section_path = cur.section_path)
    (hpage : item.page_number = cur.page_end)
    (hpar : cur.para_count < MIN_PARAS) :
    ((buildChunksForFile fb dt items).all chunkOk = true)
    ∧ shouldFlush cur item = false := by
  constructor
  · have hst := foldl_chunkStep_stOk fb dt items (none, 0, [])
      (by exact ⟨by intro acc h; simp at h, rfl⟩)
    unfold buildChunksForFile
    exact finishChunks_all hst.2
      (fun cur hc => flushChunk_chunkOk _ (hst.1 cur hc))
  · unfold shouldFlush
    simp only [hsec, hpage, ne_eq, decide_not]
    have h1 : ¬ cur.para_count ≥ MAX_PARAS := by
      unfold MAX_PARAS
      unfold MIN_PARAS at hpar
      omega
    have h2 : ¬ cur.para_count ≥ MIN_PARAS := by omega
    simp [h1, h2]

/-- Witness for C2: with a same-section, same-page item whose word count
would overflow `MAX_WORDS` but an accumulator of only one paragraph, no
flush happens, and on a tiny concrete document the paragraph bound holds. -/
theorem chunk_size_policy_witness :
    ((buildChunksForFile "doc.pdf" none
        [{ element_id := "e1", text := "hello world", page_number := 1,
           para_index := 1, section_path := "S", content_type := "text",
           doc_id := none }]).all chunkOk = true)
    ∧ shouldFlush
        { doc_id := "doc.pdf", doc_title := "doc", section_path := "S",
          page_start := 1, page_end := 1, para_start := 1, para_end := 1,
          element_ids := ["e1"], text_parts := ["t"], word_count := 799,
          para_count := 1, content_types := ["text"] }
        { element_id := "e2", text := "two words", page_number := 1,
          para_index := 2, section_path := "S", content_type := "text",
          doc_id := none } = false :=
  chunk_size_policy "doc.pdf" none
    [{ element_id := "e1", text := "hello world", page_number := 1,
       para_index := 1, section_path := "S", content_type := "text",
       doc_id := none }]
    { doc_id := "doc.pdf", doc_title := "doc", section_path := "S",
      page_start := 1, page_end := 1, para_start := 1, para_end := 1,
      element_ids := ["e1"], text_parts := ["t"], word_count := 799,
      para_count := 1, content_types := ["text"] }
    { element_id := "e2", text := "two words", page_number := 1,
      para_index := 2, section_path := "S", content_type := "text",
      doc_id := none }
    rfl rfl (by decide)

/-! ## Chunk-id determinism -/

def chunkIdOk (c : Chunk) : Bool :=
  c.chunk_id ==
    slugify c.doc_id ++ "-" ++ toString c.chunk_index ++ "-" ++
      (sha256Hex (utf8Bytes (c.doc_id ++ "|" ++ toString c.chunk_index ++
        "|" ++ String.intercalate "|" c.element_ids))).take 16

theorem flushChunk_chunkIdOk (acc : ChunkAcc) (idx : Nat) :
    chunkIdOk (flushChunk acc idx) = true := by
  unfold chunkIdOk flushChunk makeChunkId
  simp

theorem all_chunkIdOk (fb : String) (dt : Option String)
    (items : List ContentItem) :
    ∀ st, st.2.2.all chunkIdOk = true →
      ((items.foldl (chunkStep fb dt) st).2.2).all chunkIdOk = true := by
  induction items with
  | nil => intro st h; simpa using h
  | cons item rest ih =>
    intro st h
    simp only [List.foldl_cons]
    apply ih
    unfold chunkStep
    cases st.1 with
    | none => exact h
    | some cur =>
      by_cases hfl : shouldFlush cur item = true
      · simp only [hfl, if_pos]
        rw [List.all_append]
        simp [h, flushChunk_chunkIdOk]
      · simp only [hfl, if_neg, Bool.not_eq_true]
        exact h

/-- C6: re-running the chunk builder on unchanged input yields identical
chunks (the builder is a pure function of its input), and every produced
chunk's `chunk_id` equals
`slug(doc_id) ++ "-" ++ ordinal ++ "-" ++ first16hex(sha256(doc_id | ordinal
| element_ids joined with "|"))` — so identical element sets at the same
ordinal always yield the same id and content across runs. -/
theorem chunk_id_deterministic (fb : String) (dt : Option String)
    (items : List ContentItem) :
    buildChunksForFile fb dt items = buildChunksForFile fb dt items
    ∧ (buildChunksForFile fb dt items).all chunkIdOk = true := by
  refine ⟨rfl, ?_⟩
  unfold buildChunksForFile
  have h := all_chunkIdOk fb dt items (none, 0, []) rfl
  exact finishChunks_all h (fun cur _ => flushChunk_chunkIdOk cur _)

end Chatbot
